import Mathlib

/-!
Verification development for the sekiei static-site generator's content-graph
resolution and rendering engine.  The definitions below are a shallow
embedding of the Rust source (src/paths.rs, src/markdown.rs, src/utils.rs):
strings are modelled as `List Char`, filesystem paths as slash-separated
strings or component lists, the global file cache as an explicit association
list, and fallible code as `Option`.  Rust functions that call external
libraries (the inkjet highlighter, serde_yaml) take the external call as an
explicit function parameter.  A Rust `panic!` (e.g. `Option::unwrap` on
`None`) is modelled by returning `none` from an `Option`-valued embedding.
-/

namespace Sekiei

/-- Convert a Lean string literal to the `List Char` representation used
throughout this development. -/
def str (s : String) : List Char := s.data

/-- First element of a character list equals `c` (Rust `str::starts_with(char)`). -/
def startsWithChar (c : Char) (s : List Char) : Bool :=
  match s with
  | [] => false
  | x :: _ => x = c

/-- Rust `str::split(sep)` on a single-character separator: always returns at
least one piece, keeps empty pieces. -/
def splitOnChar (sep : Char) (s : List Char) : List (List Char) :=
  s.foldr
    (fun c acc =>
      match acc with
      | [] => [[c]]
      | a :: as_ => if c = sep then [] :: a :: as_ else (c :: a) :: as_)
    [[]]

/-- Join components with a separator character (inverse of `splitOnChar` on
well-formed component lists); models `PathBuf::to_string_lossy` after pushes. -/
def joinWith (sep : Char) : List (List Char) → List Char
  | [] => []
  | [a] => a
  | a :: rest => a ++ sep :: joinWith sep rest

/-- Rust `str::strip_prefix`: `some` of the remainder when `pre` is a prefix. -/
def stripPrefixL (pre s : List Char) : Option (List Char) :=
  if pre.isPrefixOf s then some (s.drop pre.length) else none

/-- Hex digit character for a value below 16 (lowercase, as Rust `{:x}`). -/
def hexDigit (n : Nat) : Char :=
  if n < 10 then Char.ofNat (48 + n) else Char.ofNat (87 + n)

/-- Digits of `n` in base 16, most significant first, with fuel to keep the
recursion structural (fuel `n` always suffices). -/
def hexDigitsAux (fuel n : Nat) : List Char :=
  match fuel with
  | 0 => [hexDigit (n % 16)]
  | fuel + 1 => if n < 16 then [hexDigit n] else hexDigitsAux fuel (n / 16) ++ [hexDigit (n % 16)]

/-- Rust `format!("-u{:04x}", c)`'s numeric part: lowercase hex, zero-padded
to at least four digits. -/
def hex04 (n : Nat) : List Char :=
  let ds := hexDigitsAux n n
  List.replicate (4 - ds.length) '0' ++ ds

/-- Models Rust's Unicode-aware `char::is_alphanumeric` (Alphabetic or
Nd/Nl/No).  Exact for every codepoint below U+0100: ASCII alphanumerics via
`Char.isAlphanum`, and in the Latin-1 Supplement the letters U+00C0-U+00D6,
U+00D8-U+00F6, U+00F8-U+00FF, the letters U+00AA, U+00B5, U+00BA, and the
numeric characters U+00B2, U+00B3, U+00B9, U+00BC-U+00BE.  Codepoints at or
above U+0100 are mapped to `false`; this is faithful only for characters
that are not Unicode-alphanumeric (the theorems below apply the function
beyond U+00FF only to U+1F600, an emoji, which is not alphanumeric). -/
def rust_is_alphanumeric (c : Char) : Bool :=
  let n := c.toNat
  if n < 0x80 then c.isAlphanum
  else if n < 0x100 then
    n = 0xAA || n = 0xB5 || n = 0xBA
      || n = 0xB2 || n = 0xB3 || n = 0xB9
      || (0xBC ≤ n && n ≤ 0xBE)
      || (0xC0 ≤ n && n ≤ 0xD6)
      || (0xD8 ≤ n && n ≤ 0xF6)
      || (0xF8 ≤ n && n ≤ 0xFF)
  else false

/-- The character class kept verbatim by `sanitize_filename`
(src/utils.rs line 5): `c.is_alphanumeric() || c == '.' || c == '-' || c == '_'`,
with Rust's Unicode `is_alphanumeric` modelled by `rust_is_alphanumeric`. -/
def keptChar (c : Char) : Bool :=
  rust_is_alphanumeric c || c = '.' || c = '-' || c = '_'

/-- src/utils.rs `sanitize_filename`: replace `/` and `\` by `-`, keep
alphanumeric characters and `.`, `-`, `_`, escape every other character as
`-uXXXX` (lowercase hex, zero-padded to at least four digits), then replace
`/` by `-` again. -/
def sanitize_filename (path : List Char) : List Char :=
  let p := path.map (fun c => if c = '/' then '-' else c)
  let p := p.map (fun c => if c = '\\' then '-' else c)
  let sanitized :=
    (p.map (fun c => if keptChar c then [c] else '-' :: 'u' :: hex04 c.toNat)).flatten
  sanitized.map (fun c => if c = '/' then '-' else c)

/-- Models `Path::parent().unwrap_or(Path::new(""))` on a component list. -/
def parentOr (l : List (List Char)) : List (List Char) :=
  match l with
  | [] => []
  | _ => l.dropLast

/-- Models `Path::strip_prefix("content").unwrap_or(Path::new(""))` on a component
list (the `unwrap_or` collapses both the error case and the empty path). -/
def stripContent (l : List (List Char)) : List (List Char) :=
  match l with
  | c :: rest => if c = str "content" then rest else []
  | [] => []

/-- Models `Path::strip_prefix("content").unwrap_or(path)` on a path string
(here the error case keeps the original path). -/
def stripContentStr (p : List Char) : List Char :=
  if p = str "content" then []
  else if (str "content/").isPrefixOf p then p.drop 8
  else p

/-- Models `PathBuf::push` of one relative segment on the path-buffer string
`b`: a separator is inserted exactly when the buffer is nonempty and does
not already end with one, then the segment is appended (so pushing an empty
segment only ensures a trailing separator, which the next push collapses). -/
def rustPush (b s : List Char) : List Char :=
  if b ≠ [] ∧ b.getLast? ≠ some '/' then b ++ '/' :: s else b ++ s

/-- src/paths.rs `resolve_path`: resolve a `./`- or `../`-prefixed reference
against the referencing document's containing directory.  `current_path` is
the referencing document's path as a component list (e.g.
`[content, a, b, c.md]`).  Only the first segment is interpreted: `.` keeps
the directory, `..` ascends one level (a no-op at the root); all remaining
segments, including further `..`s, are pushed verbatim with
`PathBuf::push` semantics (`rustPush`). -/
def resolve_path (path : List Char) (current_path : List (List Char)) : List Char :=
  let current_dir := stripContent (parentOr current_path)
  let relative_path :=
    if (str "./").isPrefixOf path || (str "../").isPrefixOf path then
      match splitOnChar '/' path with
      | [] => rustPush (joinWith '/' current_dir) []
      | first :: rest =>
        let full :=
          if first = str "." then joinWith '/' current_dir
          else if first = str ".." then
            (match current_dir with
             | [] => []
             | _ => joinWith '/' current_dir.dropLast)
          else rustPush (joinWith '/' current_dir) first
        rest.foldl rustPush full
    else path
  str "/static/" ++ sanitize_filename relative_path

/-- src/paths.rs `get_internal_link_path`: strip a `.md` suffix, map `index`
to `/`, otherwise prepend `/`. -/
def get_internal_link_path (path : List Char) : List Char :=
  let clean_path := if (str ".md").isSuffixOf path then path.take (path.length - 3) else path
  if clean_path = str "index" then str "/" else '/' :: clean_path

/-! ## File Index (src/paths.rs `FILE_CACHE` / `init_file_cache`) -/

/-- Association list from a bare name to the ordered list of matching paths;
models the `HashMap<String, Vec<PathBuf>>` file cache. -/
def AList (α : Type) : Type := List (List Char × List α)

/-- Update the list stored under key `k` with `f` (inserting `f []` when the
key is absent); models `HashMap::entry(k).or_insert_with(Vec::new)` followed
by a mutation of the vector. -/
def alUpdate {α : Type} (m : AList α) (k : List Char) (f : List α → List α) : AList α :=
  match m with
  | [] => [(k, f [])]
  | (k0, vs) :: rest => if k0 = k then (k0, f vs) :: rest else (k0, vs) :: alUpdate rest k f

/-- Models `HashMap::get`: `some` of the stored list, `none` when the key is absent. -/
def lookupMap {α : Type} (m : AList α) (k : List Char) : Option (List α) :=
  match m with
  | [] => none
  | (k0, vs) :: rest => if k0 = k then some vs else lookupMap rest k

/-- Lookup defaulting to the empty list (used to state membership facts). -/
def alGet {α : Type} (m : AList α) (k : List Char) : List α :=
  (lookupMap m k).getD []

/-- The file cache maps bare names to path strings. -/
def FileMap : Type := AList (List Char)

/-- Models `Path::file_name` of a slash-separated path string (last component). -/
def fileNameOf (p : List Char) : List Char :=
  (splitOnChar '/' p).getLastD []

/-- Index of the last occurrence of `c` in `s`, if any. -/
def lastIdxOf (c : Char) (s : List Char) : Option Nat :=
  s.enum.foldl (fun acc ix => if ix.2 = c then some ix.1 else acc) none

/-- Models `Path::file_stem` of a bare file name: drop the part after the last `.`,
except when the only `.` is the leading one (hidden files keep their name). -/
def stemOf (name : List Char) : List Char :=
  match lastIdxOf '.' name with
  | none => name
  | some 0 => name
  | some i => name.take i

/-- Models `PathBuf::with_extension("")` on a path string: replace the last
component by its stem. -/
def dropExtension (p : List Char) : List Char :=
  let comps := splitOnChar '/' p
  joinWith '/' (comps.dropLast ++ [stemOf (comps.getLastD [])])

/-- One file of the walk, inserted into the cache: the bare file name always,
and additionally the file stem when the name ends in `.md`
(src/paths.rs lines 26-44).  Note the walk in `init_file_cache` is
`WalkDir::new("content")` with no hidden-entry filter, so `entries` is every
file under the root, hidden or not. -/
def cacheStep (m : FileMap) (p : List Char) : FileMap :=
  let filename := fileNameOf p
  let m1 := alUpdate m filename (fun vs => vs ++ [p])
  if (str ".md").isSuffixOf filename then
    alUpdate m1 (stemOf filename) (fun vs => vs ++ [p])
  else m1

/-- src/paths.rs `init_file_cache`: fold every file path yielded by the walk
into the cache. -/
def init_file_cache (entries : List (List Char)) : FileMap :=
  entries.foldl cacheStep []

/-! ## Reference resolution (src/paths.rs) -/

/-- src/paths.rs `find_unique_image`: a name with a separator resolves
path-relatively; otherwise the cache is consulted, and any nonempty match
list resolves to its first member (the `1` and `_` arms of the source
`match` are identical), `/static/`-prefixed and sanitized. -/
def find_unique_image (image_name : List Char) (current_path : List (List Char))
    (cache : FileMap) : List Char :=
  if image_name.contains '/' then resolve_path image_name current_path
  else
    match lookupMap cache image_name with
    | some ms =>
      match ms with
      | [] => resolve_path image_name current_path
      | m0 :: _ => str "/static/" ++ sanitize_filename (stripContentStr m0)
    | none => resolve_path image_name current_path

/-- src/paths.rs `find_unique_internal_link`: a nonempty match list resolves
to the first `.md` match, or failing that the first match of any kind
(`find(...).unwrap_or(&matches[0])`); the chosen path is `content`-stripped,
extension-dropped, with `\` flattened to `/` and `index` mapped to `/`. -/
def find_unique_internal_link (link_name : List Char) (cache : FileMap) : List Char :=
  match lookupMap cache link_name with
  | some ms =>
    match ms with
    | [] => get_internal_link_path link_name
    | m0 :: _ =>
      let match_path := (ms.find? (fun p => (str ".md").isSuffixOf p)).getD m0
      let path := dropExtension (stripContentStr match_path)
      let clean_path := path.map (fun c => if c = '\\' then '/' else c)
      if clean_path = str "index" then str "/" else '/' :: clean_path
  | none => get_internal_link_path link_name

/-- The replacement closure of src/paths.rs `process_alternative_images`,
applied to one `![[path|alt]]` match: non-absolute, non-external references
go through `find_unique_image`. -/
def alt_image_replacement (path alt : List Char) (current_path : List (List Char))
    (cache : FileMap) : List Char :=
  if !((str "http://").isPrefixOf path) && !((str "https://").isPrefixOf path)
      && !startsWithChar '/' path then
    str "![" ++ alt ++ str "](" ++ find_unique_image path current_path cache ++ str ")"
  else
    str "![" ++ alt ++ str "](" ++ path ++ str ")"

/-- The replacement closure of src/paths.rs `process_links`, applied to one
`[[path|display]]` match (`alt？ = none` when no pipe part is present):
default display text is the final path segment with a `wiki:` prefix
stripped; `wiki:` targets go to Wikipedia; other non-absolute targets are
resolved through the cache when bare, else by `get_internal_link_path`. -/
def link_replacement (path : List Char) (alt? : Option (List Char))
    (cache : FileMap) : List Char :=
  let display_text :=
    match alt? with
    | some m => m
    | none =>
      ((splitOnChar '/' ((stripPrefixL (str "wiki:") path).getD path)).getLast?).getD path
  if (str "wiki:").isPrefixOf path then
    let article := (stripPrefixL (str "wiki:") path).getD path
    str "[wiki:" ++ display_text ++ str "](https://en.wikipedia.org/wiki/" ++ article ++ str ")"
  else if !((str "http://").isPrefixOf path) && !((str "https://").isPrefixOf path)
      && !startsWithChar '/' path then
    let link_path :=
      if !(path.contains '/') then find_unique_internal_link path cache
      else get_internal_link_path path
    str "[" ++ display_text ++ str "](" ++ link_path ++ str ")"
  else
    str "[" ++ display_text ++ str "](" ++ path ++ str ")"

/-! ## Wiki-namespace parenthetical pass (src/paths.rs
`process_wiki_parenthetical_links`, regex `\[(.*?)\]\(wiki:([^)]+)\)`) -/

/-- Backtracking scan for the regex tail after an opening `[`: the lazy
display group (`.*?`, no newline) grows until a `](wiki:` occurs that is
followed by a nonempty `)`-free article and a closing `)`.  Returns the
number of matched characters after the `[` together with the replacement
text `[display](https://en.wikipedia.org/wiki/article)`. -/
def wikiScan (dispRev : List Char) (t : List Char) : Option (Nat × List Char) :=
  match t with
  | [] => none
  | c :: u =>
    if c = '\n' then none
    else if c = ']' && (str "(wiki:").isPrefixOf u then
      let afterTag := u.drop 6
      let article := afterTag.takeWhile (fun d => !(d = ')'))
      if article ≠ [] ∧ (afterTag.drop article.length).head? = some ')' then
        some (dispRev.length + 8 + article.length,
          str "[" ++ dispRev.reverse ++ str "](https://en.wikipedia.org/wiki/"
            ++ article ++ str ")")
      else wikiScan (c :: dispRev) u
    else wikiScan (c :: dispRev) u

/-- Try the wiki-parenthetical regex at the start of `s`; a match must begin
with `[`.  The returned length count excludes the leading `[`. -/
def tryWikiMatch (s : List Char) : Option (Nat × List Char) :=
  match s with
  | c :: rest => if c = '[' then wikiScan [] rest else none
  | [] => none

/-- Models `Regex::replace_all` for the wiki-parenthetical regex: leftmost,
non-overlapping matches, each replaced independently; fuel keeps the
recursion structural (`s.length` always suffices because every match
consumes at least one character). -/
def replaceAllWikiAux (fuel : Nat) (s : List Char) : List Char :=
  match fuel, s with
  | 0, s => s
  | _, [] => []
  | fuel + 1, c :: rest =>
    match tryWikiMatch (c :: rest) with
    | some (extra, repl) => repl ++ replaceAllWikiAux fuel (rest.drop extra)
    | none => c :: replaceAllWikiAux fuel rest

/-- src/paths.rs `process_wiki_parenthetical_links`. -/
def process_wiki_parenthetical_links (s : List Char) : List Char :=
  replaceAllWikiAux s.length s

/-- Returns `true` when `pat` occurs as a contiguous substring of `s`. -/
def containsSub (pat : List Char) : List Char → Bool
  | [] => pat.isPrefixOf []
  | c :: rest => pat.isPrefixOf (c :: rest) || containsSub pat rest

/-! ## Fence info-string parsing (src/markdown.rs) -/

/-- Rust `usize::from_str`: optional `+` sign then one or more ASCII digits. -/
def parseUsize? (s : List Char) : Option Nat :=
  let t := match s with
    | '+' :: r => r
    | r => r
  if t ≠ [] ∧ t.all Char.isDigit then
    some (t.foldl (fun n c => n * 10 + (c.toNat - 48)) 0)
  else none

/-- Rust `str::trim` (both ends; whitespace as in `Char.isWhitespace`). -/
def trimChars (s : List Char) : List Char :=
  ((s.dropWhile Char.isWhitespace).reverse.dropWhile Char.isWhitespace).reverse

/-- Insert into a `HashSet`-modelling list (no duplicates, insertion order). -/
def setInsert (l : List Nat) (n : Nat) : List Nat :=
  if n ∈ l then l else l ++ [n]

/-- The inclusive range `a..=b` as a list (empty when `b < a`). -/
def rangeList (a b : Nat) : List Nat :=
  (List.range (b + 1 - a)).map (· + a)

/-- The `parse_ranges` closure of src/markdown.rs `parse_highlighting_info`:
comma-separated parts, each a single number or `a-b` range (malformed parts
are skipped). -/
def parse_ranges (s : List Char) : List Nat :=
  (splitOnChar ',' s).foldl
    (fun acc part =>
      let part := trimChars part
      if part.contains '-' then
        match splitOnChar '-' part with
        | [r0, r1] =>
          match parseUsize? (trimChars r0), parseUsize? (trimChars r1) with
          | some a, some b => (rangeList a b).foldl setInsert acc
          | _, _ => acc
        | _ => acc
      else
        match parseUsize? part with
        | some n => setInsert acc n
        | none => acc)
    []

/-- First match of the regex `tag\x7b([^\x7d]+)\x7d` (e.g. `DEL_RE` with
`tag = "del=\x7b"`): scan left to right; at each position where the literal
tag matches, the capture is the nonempty run up to the next `\x7d`; on
failure the scan resumes one character further. -/
def findBracedAfter (tag : List Char) : List Char → Option (List Char)
  | [] => none
  | c :: rest =>
    if tag.isPrefixOf (c :: rest) then
      let body := (c :: rest).drop tag.length
      let content := body.takeWhile (fun d => !(d = '\x7d'))
      if content ≠ [] ∧ (body.drop content.length).head? = some '\x7d' then
        some content
      else findBracedAfter tag rest
    else findBracedAfter tag rest

/-- All matches of `H_RE = \x7b([^\x7d]+)\x7d` in order (`captures_iter`):
leftmost non-overlapping braced groups with nonempty `\x7d`-free content.
Fuel keeps the recursion structural; `s.length` always suffices. -/
def bracedGroupsAux (fuel : Nat) (s : List Char) : List (List Char) :=
  match fuel, s with
  | 0, _ => []
  | _, [] => []
  | fuel + 1, c :: rest =>
    if c = '\x7b' then
      let content := rest.takeWhile (fun d => !(d = '\x7d'))
      if content ≠ [] ∧ (rest.drop content.length).head? = some '\x7d' then
        content :: bracedGroupsAux fuel (rest.drop (content.length + 1))
      else bracedGroupsAux fuel rest
    else bracedGroupsAux fuel rest

/-- All `H_RE` matches of `s`. -/
def bracedGroups (s : List Char) : List (List Char) :=
  bracedGroupsAux s.length s

/-- src/markdown.rs `parse_highlighting_info`: the `del=` and `add=` sets
from the first `del=\x7b...\x7d` / `add=\x7b...\x7d` groups, and the plain
highlight set assigned (overwritten) once per `H_RE` group whose full match
does not start with `del=` or `add=` — the full match of `H_RE` always
starts with `\x7b`, so the guard never filters anything and the final value
comes from the last braced group. -/
def parse_highlighting_info (info : List Char) : List Nat × List Nat × List Nat :=
  let del_lines := match findBracedAfter (str "del=\x7b") info with
    | some r => parse_ranges r
    | none => []
  let add_lines := match findBracedAfter (str "add=\x7b") info with
    | some r => parse_ranges r
    | none => []
  let h_lines := (bracedGroups info).foldl
    (fun h g =>
      let full := '\x7b' :: (g ++ ['\x7d'])
      if !((str "del=").isPrefixOf full) && !((str "add=").isPrefixOf full) then
        parse_ranges g
      else h)
    []
  (del_lines, add_lines, h_lines)

/-! ## Markdown renderer: fenced code blocks (src/markdown.rs) -/

/-- The inkjet `Language` values reachable from `LANGUAGE_MAP`. -/
inductive Language where
  | rust | javascript | typescript | python | css | scss | html | lua
  | jsx | tsx | zig | ocaml | java | c | cpp | csharp | nix | go
  deriving DecidableEq, Repr

/-- src/markdown.rs `LANGUAGE_MAP`. -/
def LANGUAGE_MAP : List (List Char × Language) :=
  [ (str "rust", .rust), (str "rs", .rust),
    (str "javascript", .javascript), (str "js", .javascript),
    (str "typescript", .typescript), (str "ts", .typescript),
    (str "python", .python), (str "py", .python),
    (str "css", .css), (str "scss", .scss), (str "html", .html),
    (str "lua", .lua), (str "jsx", .jsx), (str "tsx", .tsx),
    (str "zig", .zig), (str "ml", .ocaml), (str "ocaml", .ocaml),
    (str "java", .java), (str "c", .c), (str "cpp", .cpp),
    (str "c++", .cpp), (str "c#", .csharp), (str "csharp", .csharp),
    (str "nix", .nix), (str "go", .go), (str "golang", .go) ]

/-- src/markdown.rs `get_inkjet_language`: case-insensitive map lookup. -/
def get_inkjet_language (lang : List Char) : Option Language :=
  (LANGUAGE_MAP.find? (fun e => e.1 = lang.map Char.toLower)).map (·.2)

/-- Rust `str::split_whitespace`: maximal non-whitespace runs, no empties. -/
def splitWhitespaceAux (s : List Char) (acc : List Char) : List (List Char) :=
  match s with
  | [] => if acc = [] then [] else [acc.reverse]
  | c :: rest =>
    if c.isWhitespace then
      if acc = [] then splitWhitespaceAux rest []
      else acc.reverse :: splitWhitespaceAux rest []
    else splitWhitespaceAux rest (c :: acc)

/-- Rust `str::split_whitespace` as a list of parts. -/
def splitWhitespace (s : List Char) : List (List Char) :=
  splitWhitespaceAux s []

/-- src/markdown.rs `extract_language_and_filename`: the language is the
first whitespace-separated part of the info string (if any); the filename is
the value of a `title=` part, with one matching level of quotes stripped. -/
def extract_language_and_filename (info : List Char) :
    Option (List Char) × Option (List Char) :=
  let parts := splitWhitespace info
  let language := match parts with
    | [] => none
    | p :: _ => some p
  let filename :=
    (parts.find? (fun part => (str "title=").isPrefixOf part)).bind
      (fun part =>
        let eq_pos :=
          if part.contains '=' then (part.takeWhile (fun d => !(d = '='))).length else 0
        if eq_pos < part.length - 1 then
          let value := part.drop (eq_pos + 1)
          if (startsWithChar '"' value && value.getLast? = some '"')
              || (startsWithChar (Char.ofNat 39) value
                  && value.getLast? = some (Char.ofNat 39)) then
            some ((value.drop 1).take (value.length - 2))
          else some value
        else none)
  (language, filename)

/-- Models `htmlescape::encode_minimal`. -/
def encode_minimal (s : List Char) : List Char :=
  (s.map (fun c =>
    if c = '&' then str "&amp;"
    else if c = '<' then str "&lt;"
    else if c = '>' then str "&gt;"
    else if c = '"' then str "&quot;"
    else if c = Char.ofNat 39 then str "&#x27;"
    else [c])).flatten

/-- Rust `str::lines`: split on `\n`, drop one trailing empty piece, strip a
trailing `\r` from each line. -/
def rustLines (s : List Char) : List (List Char) :=
  if s = [] then []
  else
    let parts := splitOnChar '\n' s
    let parts := if parts.getLast? = some [] then parts.dropLast else parts
    parts.map (fun l => if l.getLast? = some '\r' then l.dropLast else l)

/-- Decimal digit characters of `n` (Rust `usize::to_string`). -/
def decDigits (n : Nat) : List Char := Nat.toDigits 10 n

/-- Rust `format!("\x7b:0width$\x7d", n)`: zero-padded decimal. -/
def padNum (width n : Nat) : List Char :=
  let ds := decDigits n
  List.replicate (width - ds.length) '0' ++ ds

/-- The per-line class attribute of src/markdown.rs `markdown_to_html`
(lines 255-262): precedence delete, then add, then plain highlight. -/
def line_class (del add h : List Nat) (line_num : Nat) : List Char :=
  if line_num ∈ del then str " class=\"highlight-del\""
  else if line_num ∈ add then str " class=\"highlight-add\""
  else if line_num ∈ h then str " class=\"highlight\""
  else []

/-- The `End(TagEnd::CodeBlock)` handler of src/markdown.rs
`markdown_to_html` (lines 219-293), for a block whose fence info string is
`lang_info` and whose accumulated text is `code_content`.  The inkjet
highlighter is the external parameter `hl`.  The handler ends by formatting
`current_language.unwrap()` into the header; when no language was extracted
that `unwrap` panics, modelled as `none`. -/
def code_block_html (hl : Language → List Char → Except (List Char) (List Char))
    (lang_info code_content : List Char) : Option (List Char) :=
  let lf := extract_language_and_filename lang_info
  let current_highlighting := parse_highlighting_info lang_info
  let highlighted_html :=
    match lf.1 with
    | some lang_str =>
      match get_inkjet_language lang_str with
      | some inkjet_lang =>
        match hl inkjet_lang code_content with
        | .ok h => h
        | .error _ => encode_minimal code_content
      | none => encode_minimal code_content
    | none => encode_minimal code_content
  let lines := rustLines highlighted_html
  let total_lines := lines.length
  let width_needed := if total_lines > 0 then (decDigits total_lines).length else 1
  let del_lines := current_highlighting.1
  let add_lines := current_highlighting.2.1
  let highlight_lines := current_highlighting.2.2
  let line_numbered_html :=
    joinWith '\n'
      (lines.enum.map (fun il =>
        let line_num := il.1 + 1
        let cls := line_class del_lines add_lines highlight_lines line_num
        str "<span" ++ cls ++ str "><span class=\"line-number\">"
          ++ padNum width_needed line_num
          ++ str "</span><span class=\"code-line\">" ++ il.2
          ++ str "</span></span>"))
  match lf.2 with
  | some filename =>
    match lf.1 with
    | some lang => some
        (str "<div class=\"code-block\"><div class=\"code-header\"><span class=\"code-filename\">"
          ++ filename
          ++ str "</span>  <div><span class=\"code-language\">" ++ lang
          ++ str "</span> <button class=\"copy-button\" onclick=\"copyCode(this)\">copy</button></div></div><pre><code>"
          ++ line_numbered_html ++ str "</code></pre></div>")
    | none => none
  | none =>
    match lf.1 with
    | some lang => some
        (str "<div class=\"code-block\"><div class=\"code-header\"> <div><span class=\"code-language\">"
          ++ lang
          ++ str "</span><button class=\"copy-button\" onclick=\"copyCode(this)\">copy</button> </div></div><pre><code>"
          ++ line_numbered_html ++ str "</code></pre></div>")
    | none => none

/-! ## Frontmatter extraction (src/markdown.rs `extract_frontmatter`) -/

/-- The fragment of `serde_yaml::Value` this code observes: a mapping, a
string, or anything else. -/
inductive Yaml where
  | string : List Char → Yaml
  | mapping : List (List Char × Yaml) → Yaml
  | otherVal : Yaml
  deriving Repr

/-- Models `serde_yaml::Value::get(key)`: `some` of the value under a string key of
a mapping, `none` for missing keys and non-mappings. -/
def Yaml.get (y : Yaml) (k : List Char) : Option Yaml :=
  match y with
  | .mapping es => (es.find? (fun e => e.1 = k)).map (·.2)
  | _ => none

/-- Models `serde_yaml::Value::is_string`. -/
def Yaml.isString (y : Yaml) : Bool :=
  match y with
  | .string _ => true
  | _ => false

/-- Byte index of the first occurrence of `pat` in `s` (Rust `str::find`;
char index coincides with byte index on the inputs this development states
theorems about). -/
def findSub (pat : List Char) : List Char → Option Nat
  | [] => if pat.isPrefixOf [] then some 0 else none
  | c :: rest =>
    if pat.isPrefixOf (c :: rest) then some 0
    else (findSub pat rest).map (· + 1)

/-- src/markdown.rs `extract_frontmatter`, with the `serde_yaml::from_str`
call as the external parameter `parse` (returning `none` on a YAML parse
error).  Errors carry the source's message strings. -/
def extract_frontmatter (parse : List Char → Option Yaml) (content : List Char) :
    Except (List Char) (Yaml × List Char) :=
  let trimmed_content := content.dropWhile Char.isWhitespace
  if !((str "---").isPrefixOf trimmed_content) then
    .error (str "Frontmatter is missing")
  else
    match findSub (str "\n---") (trimmed_content.drop 3) with
    | none => .error (str "Frontmatter end delimiter not found")
    | some e =>
      let frontmatter_str := trimChars ((trimmed_content.drop 3).take e)
      match parse frontmatter_str with
      | none => .error (str "YAML parse error")
      | some frontmatter =>
        match frontmatter.get (str "title"), frontmatter.get (str "date") with
        | some t, some d =>
          if !t.isString || !d.isString then
            .error (str "Title and date must be strings")
          else
            .ok (frontmatter, (trimmed_content.drop 3).drop (e + 4))
        | _, _ => .error (str "Missing title or date in frontmatter")

/-- Returns `true` exactly on `Except.ok`. -/
def isOkE {ε α : Type} : Except ε α → Bool
  | .ok _ => true
  | .error _ => false

/-- The success conditions of `extract_frontmatter`, written out from the
claim: the (whitespace-trimmed) document opens with `---`, a `\n---`
closing delimiter follows, the delimited block parses, and it carries
string-typed `title` and `date` values. -/
def frontmatterOk (parse : List Char → Option Yaml) (content : List Char) : Prop :=
  let trimmed := content.dropWhile Char.isWhitespace
  (str "---").isPrefixOf trimmed = true ∧
  ∃ e, findSub (str "\n---") (trimmed.drop 3) = some e ∧
    ∃ fm, parse (trimChars ((trimmed.drop 3).take e)) = some fm ∧
      ∃ t, fm.get (str "title") = some t ∧
        ∃ d, fm.get (str "date") = some d ∧
          t.isString = true ∧ d.isString = true

/-! ## Backlink Indexer (spec §4.4) -/

/-- A document as the Backlink Indexer sees it: frontmatter title, canonical
document path, and the internal-link targets extracted from the rewritten
body by the Reference Rewriter's `LINK_REGEX` pass. -/
structure SpecDoc where
  title : List Char
  path : List Char
  targets : List (List Char)
  deriving Repr

/-- A target counts as internal exactly when it is not a `wiki:` reference
and not an absolute or external reference (spec §4.4; the exclusions of
src/paths.rs `process_links`). -/
def is_internal_target (t : List Char) : Bool :=
  !((str "wiki:").isPrefixOf t) && !((str "http://").isPrefixOf t)
    && !((str "https://").isPrefixOf t) && !startsWithChar '/' t

/-- Backlink graph: target canonical path to the set of
(source title, source canonical path) pairs. -/
def BacklinkGraph : Type := AList (List Char × List Char)

/-- Insert a backlink pair into the set kept under `key` (no duplicates). -/
def backlinkInsert (g : BacklinkGraph) (key : List Char)
    (pair : List Char × List Char) : BacklinkGraph :=
  alUpdate g key (fun vs => if pair ∈ vs then vs else vs ++ [pair])

/-- Modelled from the spec: one document's contribution to the backlink
graph — src/ declares only the `Backlink` struct (src/markdown.rs lines
14-18); the collection pass itself is not in src/.  Per spec §4.4, every
internal target discovered in the rewritten body inserts
`(title, self-path)` under the normalized target, normalization being the
document-path rule (`get_internal_link_path`). -/
def collect_document (g : BacklinkGraph) (d : SpecDoc) : BacklinkGraph :=
  d.targets.foldl
    (fun g t =>
      if is_internal_target t then
        backlinkInsert g (get_internal_link_path t) (d.title, d.path)
      else g)
    g

/-- Modelled from the spec: `collect(tree) -> BacklinkGraph`, a single full
pass over all documents before any document is rendered (spec §4.4). -/
def collect (docs : List SpecDoc) : BacklinkGraph :=
  docs.foldl collect_document []

/-! ## Claim-side definitions (written from the spec's words, for comparison
with the source embeddings) -/

/-- The per-character sanitization rule as amended for C6: path separators
flatten to `-`, kept characters are the alphanumerics (Unicode, via
`keptChar`) plus `.`, `-`, `_` — on ASCII exactly `[A-Za-z0-9._-]`, so
extensions survive — and every other character becomes `-u` followed by its
lowercase hex codepoint, zero-padded to at least four digits. -/
def sanitize_spec_char (c : Char) : List Char :=
  if c = '/' || c = '\\' then ['-']
  else if keptChar c then [c]
  else '-' :: 'u' :: hex04 c.toNat

/-- The document-style path that `find_unique_internal_link` produces from a
cache match: `content`-stripped, extension-dropped, backslashes flattened,
`index` mapped to `/`. -/
def docPathOfMatch (mp : List Char) : List Char :=
  let path := dropExtension (stripContentStr mp)
  let clean_path := path.map (fun c => if c = '\\' then '/' else c)
  if clean_path = str "index" then str "/" else '/' :: clean_path

/-- A concrete stand-in for `serde_yaml::from_str` used by witnesses:
recognizes one fixed frontmatter block. -/
def demoParse (s : List Char) : Option Yaml :=
  if s = str "title: a\ndate: b" then
    some (.mapping [(str "title", .string (str "a")), (str "date", .string (str "b"))])
  else none

/-- The mapping `demoParse` returns. -/
def demoFm : Yaml :=
  .mapping [(str "title", .string (str "a")), (str "date", .string (str "b"))]

/-! # Theorems -/

/-! ## Association-list lemmas -/

theorem alGet_update {α : Type} (m : AList α) (k : List Char) (f : List α → List α)
    (k2 : List Char) :
    alGet (alUpdate m k f) k2 = if k = k2 then f (alGet m k2) else alGet m k2 := by
  induction m with
  | nil =>
    by_cases h : k = k2 <;> simp [alUpdate, alGet, lookupMap, h]
  | cons e rest ih =>
    obtain ⟨k0, vs⟩ := e
    simp only [alUpdate]
    by_cases h0 : k0 = k
    · subst h0
      by_cases h2 : k0 = k2 <;> simp [alGet, lookupMap, h2]
    · rw [if_neg h0]
      by_cases h2 : k0 = k2
      · subst h2
        have hk : ¬ k = k0 := fun h => h0 h.symm
        simp [alGet, lookupMap, hk]
      · simp only [alGet, lookupMap, if_neg h2]
        simpa [alGet] using ih

theorem foldl_preserve {M β : Type} (P : M → Prop) (step : M → β → M)
    (h : ∀ m b, P m → P (step m b)) :
    ∀ (l : List β) (m : M), P m → P (l.foldl step m) := by
  intro l
  induction l with
  | nil => intro m hm; simpa using hm
  | cons b rest ih =>
    intro m hm
    simpa using ih (step m b) (h m b hm)

/-! ## C1: backlink symmetry of the spec-modelled collect pass -/

theorem mem_backlinkInsert_self (g : BacklinkGraph) (k : List Char)
    (pair : List Char × List Char) : pair ∈ alGet (backlinkInsert g k pair) k := by
  unfold backlinkInsert
  rw [alGet_update]
  simp only [if_pos rfl]
  by_cases h : pair ∈ alGet g k <;> simp [h]

theorem mem_backlinkInsert_mono (g : BacklinkGraph) (k : List Char)
    (pair x : List Char × List Char) (k2 : List Char) (hx : x ∈ alGet g k2) :
    x ∈ alGet (backlinkInsert g k pair) k2 := by
  unfold backlinkInsert
  rw [alGet_update]
  split
  · split
    · exact hx
    · exact List.mem_append_left _ hx
  · exact hx

theorem mem_collect_document_mono (d : SpecDoc) (g : BacklinkGraph)
    (x : List Char × List Char) (k2 : List Char) (hx : x ∈ alGet g k2) :
    x ∈ alGet (collect_document g d) k2 := by
  unfold collect_document
  refine foldl_preserve (fun m => x ∈ alGet m k2) _ ?_ d.targets g hx
  intro m t hm
  split
  · exact mem_backlinkInsert_mono m _ _ x k2 hm
  · exact hm

theorem mem_collect_foldl_self (title path t : List Char)
    (hint : is_internal_target t = true) :
    ∀ (l : List (List Char)) (g : BacklinkGraph), t ∈ l →
      (title, path) ∈ alGet
        (l.foldl (fun g t' =>
          if is_internal_target t' then
            backlinkInsert g (get_internal_link_path t') (title, path)
          else g) g)
        (get_internal_link_path t) := by
  intro l
  induction l with
  | nil => intro g h; cases h
  | cons a rest ih =>
    intro g h
    rcases List.mem_cons.mp h with rfl | hrest
    · simp only [List.foldl_cons, hint, if_pos]
      refine foldl_preserve
        (fun m => (title, path) ∈ alGet m (get_internal_link_path t)) _ ?_ rest _
        (mem_backlinkInsert_self g _ _)
      intro m b hm
      split
      · exact mem_backlinkInsert_mono m _ _ _ _ hm
      · exact hm
    · simp only [List.foldl_cons]
      exact ih _ hrest

theorem mem_collect_document_self (d : SpecDoc) (t : List Char)
    (ht : t ∈ d.targets) (hint : is_internal_target t = true) (g : BacklinkGraph) :
    (d.title, d.path) ∈ alGet (collect_document g d) (get_internal_link_path t) := by
  unfold collect_document
  exact mem_collect_foldl_self d.title d.path t hint d.targets g ht

/-- C1.  Backlink symmetry: for every document `A` in the tree and every
internal target `t` extracted from `A`'s rewritten body, the backlink graph
built by the full `collect` pass over all documents contains
`(A.title, A.path)` in the set keyed by the normalized target — `wiki:` and
absolute/external references excluded by `is_internal_target`. -/
theorem c1_backlink_symmetry (docs : List SpecDoc) (A : SpecDoc) (t : List Char)
    (hA : A ∈ docs) (ht : t ∈ A.targets) (hint : is_internal_target t = true) :
    (A.title, A.path) ∈ alGet (collect docs) (get_internal_link_path t) := by
  unfold collect
  have main : ∀ (l : List SpecDoc) (g : BacklinkGraph), A ∈ l →
      (A.title, A.path) ∈ alGet (l.foldl collect_document g) (get_internal_link_path t) := by
    intro l
    induction l with
    | nil => intro g h; cases h
    | cons d rest ih =>
      intro g h
      rcases List.mem_cons.mp h with rfl | hrest
      · simp only [List.foldl_cons]
        refine foldl_preserve
          (fun m => (A.title, A.path) ∈ alGet m (get_internal_link_path t)) _ ?_ rest _
          (mem_collect_document_self A t ht hint g)
        intro m b hm
        exact mem_collect_document_mono b m _ _ hm
      · simp only [List.foldl_cons]
        exact ih _ hrest
  exact main docs [] hA

/-- Witness for C1 at a concrete two-document tree. -/
theorem c1_backlink_symmetry_witness :
    ((str "First"), (str "/a")) ∈
      alGet (collect [⟨str "First", str "/a", [str "b.md"]⟩, ⟨str "Second", str "/b", []⟩])
        (get_internal_link_path (str "b.md")) :=
  c1_backlink_symmetry _ ⟨str "First", str "/a", [str "b.md"]⟩ (str "b.md")
    (List.mem_cons_self _ _) (List.mem_singleton.mpr rfl) (by decide)

/-! ## C2: code-block rendering with no language tag -/

/-- C2.  The claim says `markdown_to_html` never aborts because of a code
block's language — in particular on a fenced block with an empty info string
or an indented block (both reach the `End(CodeBlock)` handler with an empty
`lang_info`).  The code instead panics there: the header format string calls
`current_language.unwrap()` and no language was extracted, so the handler
(modelled by `code_block_html`, panic = `none`) aborts for every highlighter
and every block content.  By contrast an unrecognized language tag (second
conjunct) renders fine, so it is not "treated identically to no language". -/
theorem c2_code_block_unwrap_panics
    (hl : Language → List Char → Except (List Char) (List Char))
    (code_content : List Char) :
    code_block_html hl [] code_content = none
    ∧ (code_block_html hl (str "foohoo") code_content).isSome = true :=
  ⟨rfl, rfl⟩

/-! ## C3: relative asset-path resolution -/

/-- C3 counterexample.  The claim says one level of `..` ascent is applied
per leading `../` segment, so `../../x` from directory `a/b/c` resolves to
`a/x` (`/static/a-x`).  The code ascends only for the first segment and
pushes the second `..` verbatim, yielding `/static/a-b-..-x`. -/
theorem c3_resolve_path_counterexample :
    resolve_path (str "../../x") [str "content", str "a", str "b", str "c", str "d.md"]
      = str "/static/a-b-..-x"
    ∧ resolve_path (str "../../x") [str "content", str "a", str "b", str "c", str "d.md"]
      ≠ str "/static/a-x" := by
  constructor
  · rfl
  · decide

theorem splitOnChar_ne_nil (sep : Char) (s : List Char) : splitOnChar sep s ≠ [] := by
  induction s with
  | nil => simp [splitOnChar]
  | cons c rest ih =>
    simp only [splitOnChar, List.foldr_cons]
    rcases h : (splitOnChar sep rest) with _ | ⟨a, as⟩
    · exact absurd h ih
    · rw [splitOnChar] at h
      simp only [h]
      split <;> simp

theorem splitOnChar_sep_cons (sep : Char) (s : List Char) :
    splitOnChar sep (sep :: s) = [] :: splitOnChar sep s := by
  rcases h : (splitOnChar sep s) with _ | ⟨a, as⟩
  · exact absurd h (splitOnChar_ne_nil sep s)
  · rw [splitOnChar] at h
    simp [splitOnChar, List.foldr_cons, h]

theorem splitOnChar_nonsep_cons (sep c : Char) (s : List Char) (hc : ¬ c = sep) :
    splitOnChar sep (c :: s) =
      ((c :: (splitOnChar sep s).headD []) :: (splitOnChar sep s).tail) := by
  rcases h : (splitOnChar sep s) with _ | ⟨a, as⟩
  · exact absurd h (splitOnChar_ne_nil sep s)
  · rw [splitOnChar] at h
    simp [splitOnChar, List.foldr_cons, h, hc]

theorem splitOnChar_dotdot_slash (r : List Char) :
    splitOnChar '/' ('.' :: '.' :: '/' :: r) = str ".." :: splitOnChar '/' r := by
  rw [splitOnChar_nonsep_cons '/' '.' _ (by decide),
    splitOnChar_nonsep_cons '/' '.' _ (by decide),
    splitOnChar_sep_cons]
  rfl

theorem splitOnChar_dot_slash (r : List Char) :
    splitOnChar '/' ('.' :: '/' :: r) = str "." :: splitOnChar '/' r := by
  rw [splitOnChar_nonsep_cons '/' '.' _ (by decide), splitOnChar_sep_cons]
  rfl

theorem splitOnChar_not_mem_sep (sep : Char) :
    ∀ (s p : List Char), p ∈ splitOnChar sep s → sep ∉ p := by
  intro s
  induction s with
  | nil =>
    intro p hp
    simp [splitOnChar] at hp
    simp [hp]
  | cons c rest ih =>
    intro p hp
    by_cases hc : c = sep
    · subst hc
      rw [splitOnChar_sep_cons] at hp
      rcases List.mem_cons.mp hp with rfl | hp'
      · simp
      · exact ih p hp'
    · rw [splitOnChar_nonsep_cons sep c rest hc] at hp
      rcases h : splitOnChar sep rest with _ | ⟨a, as⟩
      · exact absurd h (splitOnChar_ne_nil sep rest)
      · rw [h] at hp
        simp only [List.headD_cons, List.tail_cons] at hp
        rcases List.mem_cons.mp hp with rfl | hp'
        · intro hmem
          rcases List.mem_cons.mp hmem with heq | hmem'
          · exact hc heq.symm
          · exact ih a (by rw [h]; exact List.mem_cons_self a as) hmem'
        · exact ih p (by rw [h]; exact List.mem_cons_of_mem a hp')

theorem mem_of_getLast?_eq (l : List Char) (c : Char) (h : l.getLast? = some c) :
    c ∈ l := by
  induction l with
  | nil => cases h
  | cons a rest ih =>
    cases rest with
    | nil =>
      simp only [List.getLast?_singleton, Option.some.injEq] at h
      simp [h]
    | cons b rest' =>
      rw [List.getLast?_cons_cons] at h
      exact List.mem_cons_of_mem a (ih h)

theorem joinWith_concat (sep : Char) :
    ∀ (d : List (List Char)) (s : List Char), d ≠ [] →
      joinWith sep (d ++ [s]) = joinWith sep d ++ sep :: s := by
  intro d
  induction d with
  | nil => intro s hd; cases hd rfl
  | cons a rest ih =>
    intro s _
    cases rest with
    | nil => rfl
    | cons b rest' =>
      show a ++ sep :: joinWith sep ((b :: rest') ++ [s])
        = (a ++ sep :: joinWith sep (b :: rest')) ++ sep :: s
      rw [ih s (by simp)]
      simp

theorem joinWith_ne_nil_last :
    ∀ (d : List (List Char)), d ≠ [] → (∀ p ∈ d, p ≠ [] ∧ '/' ∉ p) →
      joinWith '/' d ≠ [] ∧ (joinWith '/' d).getLast? ≠ some '/' := by
  intro d
  induction d with
  | nil => intro hd _; cases hd rfl
  | cons a rest ih =>
    intro _ hcomp
    cases rest with
    | nil =>
      have ha := hcomp a (List.mem_cons_self a [])
      refine ⟨ha.1, fun hlast => ha.2 (mem_of_getLast?_eq a '/' hlast)⟩
    | cons b rest' =>
      obtain ⟨h1, h2⟩ := ih (by simp)
        (fun p hp => hcomp p (List.mem_cons_of_mem a hp))
      have hjoin : joinWith '/' (a :: b :: rest')
          = a ++ ['/'] ++ joinWith '/' (b :: rest') := by
        show a ++ '/' :: joinWith '/' (b :: rest') = _
        simp
      rw [hjoin]
      constructor
      · simp
      · rw [List.getLast?_append_of_ne_nil _ h1]
        exact h2

theorem rustPush_join (d : List (List Char)) (s : List Char)
    (hcomp : ∀ p ∈ d, p ≠ [] ∧ '/' ∉ p) :
    rustPush (joinWith '/' d) s = joinWith '/' (d ++ [s]) := by
  by_cases hd : d = []
  · subst hd
    simp [rustPush, joinWith]
  · obtain ⟨h1, h2⟩ := joinWith_ne_nil_last d hd hcomp
    unfold rustPush
    rw [if_pos ⟨h1, h2⟩]
    exact (joinWith_concat '/' d s hd).symm

theorem foldl_rustPush_clean :
    ∀ (segs d : List (List Char)),
      (∀ p ∈ segs, p ≠ [] ∧ '/' ∉ p) → (∀ p ∈ d, p ≠ [] ∧ '/' ∉ p) →
      segs.foldl rustPush (joinWith '/' d) = joinWith '/' (d ++ segs) := by
  intro segs
  induction segs with
  | nil => intro d _ _; simp
  | cons s rest ih =>
    intro d hsegs hd
    have hd' : ∀ p ∈ d ++ [s], p ≠ [] ∧ '/' ∉ p := by
      intro p hp
      rcases List.mem_append.mp hp with hp | hp
      · exact hd p hp
      · rw [List.mem_singleton] at hp
        subst hp
        exact hsegs p (List.mem_cons_self ..)
    simp only [List.foldl_cons]
    rw [rustPush_join d s hd,
      ih (d ++ [s]) (fun p hp => hsegs p (List.mem_cons_of_mem s hp)) hd']
    simp

/-- C3 amended.  For a document at `content/<dir...>/<fname>`, a reference
`../rest` resolves against the parent of `<dir...>` (one single level of
ascent, even for `../../x`, and a no-op when `<dir...>` is already the
root), and a reference `./rest` against `<dir...>` itself; every remaining
segment of `rest` — further `..`s included — is then appended with
`PathBuf::push` semantics, under which an empty segment only ensures a
trailing separator that the next push collapses.  In particular, when the
segments of `rest` are all nonempty the result is the directory followed by
the segments verbatim.  The resolved relative path is sanitized and
prefixed with `/static/`. -/
theorem c3_resolve_path_amended (dir : List (List Char)) (fname r : List Char) :
    resolve_path (str "../" ++ r) (str "content" :: (dir ++ [fname]))
      = str "/static/" ++ sanitize_filename
          ((splitOnChar '/' r).foldl rustPush (joinWith '/' dir.dropLast))
    ∧ resolve_path (str "./" ++ r) (str "content" :: (dir ++ [fname]))
      = str "/static/" ++ sanitize_filename
          ((splitOnChar '/' r).foldl rustPush (joinWith '/' dir))
    ∧ ((∀ p ∈ dir, p ≠ [] ∧ '/' ∉ p) → (∀ p ∈ splitOnChar '/' r, p ≠ []) →
        resolve_path (str "../" ++ r) (str "content" :: (dir ++ [fname]))
          = str "/static/" ++ sanitize_filename
              (joinWith '/' (dir.dropLast ++ splitOnChar '/' r))) := by
  have hmatch : (match dir with
      | [] => ([] : List Char)
      | _ => joinWith '/' dir.dropLast) = joinWith '/' dir.dropLast := by
    cases dir <;> rfl
  have hdrop : (str "content" :: (dir ++ [fname])).dropLast = str "content" :: dir := by
    rw [← List.cons_append, List.dropLast_concat]
  have hcur : stripContent (parentOr (str "content" :: (dir ++ [fname]))) = dir := by
    show stripContent ((str "content" :: (dir ++ [fname])).dropLast) = dir
    rw [hdrop]
    simp [stripContent]
  have hA : resolve_path (str "../" ++ r) (str "content" :: (dir ++ [fname]))
      = str "/static/" ++ sanitize_filename
          ((splitOnChar '/' r).foldl rustPush (joinWith '/' dir.dropLast)) := by
    show str "/static/" ++ sanitize_filename _ = _
    rw [hcur, show str "../" ++ r = '.' :: '.' :: '/' :: r from rfl]
    have hpre : ((str "./").isPrefixOf ('.' :: '.' :: '/' :: r)
        || (str "../").isPrefixOf ('.' :: '.' :: '/' :: r)) = true := by
      show ((['.', '/'] : List Char).isPrefixOf ('.' :: '.' :: '/' :: r)
        || (['.', '.', '/'] : List Char).isPrefixOf ('.' :: '.' :: '/' :: r)) = true
      simp [List.isPrefixOf]
    rw [hpre, if_pos rfl, splitOnChar_dotdot_slash]
    have hne : ¬ (str ".." = str ".") := by decide
    dsimp only
    rw [if_neg hne, if_pos rfl, hmatch]
  refine ⟨hA, ?_, ?_⟩
  · show str "/static/" ++ sanitize_filename _ = _
    rw [hcur, show str "./" ++ r = '.' :: '/' :: r from rfl]
    have hpre : ((str "./").isPrefixOf ('.' :: '/' :: r)
        || (str "../").isPrefixOf ('.' :: '/' :: r)) = true := by
      show ((['.', '/'] : List Char).isPrefixOf ('.' :: '/' :: r)
        || (['.', '.', '/'] : List Char).isPrefixOf ('.' :: '/' :: r)) = true
      simp [List.isPrefixOf]
    rw [hpre, if_pos rfl, splitOnChar_dot_slash]
    dsimp only
    rw [if_pos rfl]
  · intro hdir hseg
    rw [hA, foldl_rustPush_clean (splitOnChar '/' r) dir.dropLast
      (fun p hp => ⟨hseg p hp, splitOnChar_not_mem_sep '/' r p hp⟩)
      (fun p hp => hdir p ((List.dropLast_prefix dir).sublist.subset hp))]

/-- Witness for C3's amended theorem at a concrete document and reference. -/
theorem c3_resolve_path_amended_witness :
    resolve_path (str "../" ++ str "x/y") [str "content", str "a", str "b", str "c.md"]
      = str "/static/" ++ sanitize_filename
          (joinWith '/' (([str "a", str "b"]).dropLast ++ splitOnChar '/' (str "x/y"))) :=
  (c3_resolve_path_amended [str "a", str "b"] (str "c.md") (str "x/y")).2.2
    (by decide) (by decide)

/-! ## C7: fence info-string highlight groups -/

/-- C7.  The claim says the bare `\x7b...\x7d` group always yields the
`highlight` class regardless of where the braced groups appear.  In the code
the `H_RE` loop's guard compares the full match (which always starts with
`\x7b`) against `del=`/`add=`, so it never filters, and `h_lines` is
overwritten on every iteration: for `rust \x7b2,4-5\x7d del=\x7b1\x7d` the
highlight set ends as `{1}` (the last group), lines 2, 4 and 5 carry no
class at all, while the reversed order produces the claimed `{2,4,5}`. -/
theorem c7_highlight_last_group_wins :
    parse_highlighting_info (str "rust \x7b2,4-5\x7d del=\x7b1\x7d") = ([1], [], [1])
    ∧ line_class [1] [] [1] 2 = []
    ∧ line_class [1] [] [1] 4 = []
    ∧ line_class [1] [] [1] 1 = str " class=\"highlight-del\""
    ∧ parse_highlighting_info (str "rust del=\x7b1\x7d add=\x7b3\x7d \x7b2,4-5\x7d")
      = ([1], [3], [2, 4, 5]) := by
  refine ⟨by decide, by decide, by decide, by decide, by decide⟩

/-! ## C4: bare internal-link resolution with no document match -/

/-- C4 counterexample.  The claim says a bare name whose File Index matches
include no `.md` file resolves exactly like the zero-match case (the
normalized bare name, here `/photo.png`), never to a non-document file's
path.  With `photo.png` indexed at `content/a/photo.png` the code falls
back to `matches[0]` and produces `/a/photo` — the non-document file's
document-style path. -/
theorem c4_no_md_match_counterexample :
    find_unique_internal_link (str "photo.png")
        [(str "photo.png", [str "content/a/photo.png"])] = str "/a/photo"
    ∧ get_internal_link_path (str "photo.png") = str "/photo.png"
    ∧ find_unique_internal_link (str "photo.png")
        [(str "photo.png", [str "content/a/photo.png"])]
      ≠ get_internal_link_path (str "photo.png") := by
  refine ⟨rfl, rfl, by decide⟩

/-- C4 amended.  A bare name whose File Index matches include no `.md` file
resolves to the *first match's* document-normalized path
(`content`-stripped, extension-dropped, `index` mapped to `/`), not via the
zero-match bare-name rule; only an absent key or an empty match list falls
back to `get_internal_link_path`. -/
theorem c4_no_md_match_amended (cache : FileMap) (name m0 : List Char)
    (ms : List (List Char))
    (hlk : lookupMap cache name = some (m0 :: ms))
    (hmd : ∀ p ∈ m0 :: ms, (str ".md").isSuffixOf p = false) :
    find_unique_internal_link name cache = docPathOfMatch m0 := by
  unfold find_unique_internal_link
  rw [hlk]
  have hfind : (m0 :: ms).find? (fun p => (str ".md").isSuffixOf p) = none := by
    rw [List.find?_eq_none]
    intro x hx
    simp [hmd x hx]
  dsimp only
  rw [hfind]
  rfl

/-- Witness for C4's amended theorem at the counterexample cache. -/
theorem c4_no_md_match_amended_witness :
    find_unique_internal_link (str "photo.png")
        [(str "photo.png", [str "content/a/photo.png"])]
      = docPathOfMatch (str "content/a/photo.png") :=
  c4_no_md_match_amended _ _ _ [] (by decide) (by decide)

/-! ## C5: hidden entries in the File Index -/

/-- C5 counterexample.  The claim says the index-building walk excludes
entries whose name begins with `.` at every level.  `init_file_cache` walks
with no hidden-entry filter, so a file beneath a hidden directory lands in
the index: for the tree `[content/.hidden/x.png]` the name `x.png` maps to
that path, which has a component starting with `.`. -/
theorem c5_hidden_entry_counterexample :
    lookupMap (init_file_cache [str "content/.hidden/x.png"]) (str "x.png")
      = some [str "content/.hidden/x.png"]
    ∧ (splitOnChar '/' (str "content/.hidden/x.png")).any
        (fun comp => comp.headD ' ' = '.') = true := by
  refine ⟨rfl, by decide⟩

theorem mem_alUpdate_append_self {α : Type} (m : AList α) (k : List Char) (v : α) :
    v ∈ alGet (alUpdate m k (fun vs => vs ++ [v])) k := by
  rw [alGet_update]
  simp

theorem mem_alUpdate_append_mono {α : Type} (m : AList α) (k k2 : List Char) (v x : α)
    (hx : x ∈ alGet m k2) : x ∈ alGet (alUpdate m k (fun vs => vs ++ [v])) k2 := by
  rw [alGet_update]
  split
  · exact List.mem_append_left _ hx
  · exact hx

theorem mem_cacheStep_self (m : FileMap) (p : List Char) :
    p ∈ alGet (cacheStep m p) (fileNameOf p) := by
  unfold cacheStep
  dsimp only
  split
  · exact mem_alUpdate_append_mono _ _ _ _ _ (mem_alUpdate_append_self m _ p)
  · exact mem_alUpdate_append_self m _ p

theorem mem_cacheStep_mono (m : FileMap) (p x : List Char) (k2 : List Char)
    (hx : x ∈ alGet m k2) : x ∈ alGet (cacheStep m p) k2 := by
  unfold cacheStep
  dsimp only
  split
  · exact mem_alUpdate_append_mono _ _ _ _ _ (mem_alUpdate_append_mono _ _ _ _ _ hx)
  · exact mem_alUpdate_append_mono _ _ _ _ _ hx

/-- C5 amended.  `init_file_cache` applies no hidden-entry filtering: every
file path the walk yields — hidden files and files beneath hidden
directories included — is inserted into the index under its bare file name. -/
theorem c5_no_hidden_filter_amended (entries : List (List Char)) (p : List Char)
    (hp : p ∈ entries) : p ∈ alGet (init_file_cache entries) (fileNameOf p) := by
  unfold init_file_cache
  have main : ∀ (l : List (List Char)) (m : FileMap), p ∈ l →
      p ∈ alGet (l.foldl cacheStep m) (fileNameOf p) := by
    intro l
    induction l with
    | nil => intro m h; cases h
    | cons e rest ih =>
      intro m h
      rcases List.mem_cons.mp h with rfl | hrest
      · simp only [List.foldl_cons]
        refine foldl_preserve (fun m => p ∈ alGet m (fileNameOf p)) _ ?_ rest _
          (mem_cacheStep_self m p)
        intro m' b hm
        exact mem_cacheStep_mono m' b _ _ hm
      · simp only [List.foldl_cons]
        exact ih _ hrest
  exact main entries [] hp

/-- Witness for C5's amended theorem at the hidden-file tree. -/
theorem c5_no_hidden_filter_amended_witness :
    str "content/.hidden/x.png" ∈
      alGet (init_file_cache [str "content/.hidden/x.png"])
        (fileNameOf (str "content/.hidden/x.png")) :=
  c5_no_hidden_filter_amended _ _ (List.mem_singleton.mpr rfl)

/-! ## C6: asset-path sanitization -/

theorem hexDigitsAux_mem (fuel : Nat) :
    ∀ (n : Nat) (d : Char), d ∈ hexDigitsAux fuel n → ∃ k, k < 16 ∧ d = hexDigit k := by
  induction fuel with
  | zero =>
    intro n d hd
    simp only [hexDigitsAux, List.mem_singleton] at hd
    exact ⟨n % 16, Nat.mod_lt _ (by norm_num), hd⟩
  | succ fuel ih =>
    intro n d hd
    by_cases h : n < 16
    · simp only [hexDigitsAux, if_pos h, List.mem_singleton] at hd
      exact ⟨n, h, hd⟩
    · simp only [hexDigitsAux, if_neg h, List.mem_append, List.mem_singleton] at hd
      rcases hd with hd | hd
      · exact ih _ d hd
      · exact ⟨n % 16, Nat.mod_lt _ (by norm_num), hd⟩

theorem hexDigit_ne_slash (k : Nat) (hk : k < 16) : ¬ hexDigit k = '/' := by
  interval_cases k <;> decide

theorem hex04_map_no_slash (n : Nat) :
    (hex04 n).map (fun c => if c = '/' then '-' else c) = hex04 n := by
  have h : ∀ d ∈ hex04 n, (if d = '/' then '-' else d) = d := by
    intro d hd
    simp only [hex04, List.mem_append, List.mem_replicate] at hd
    rcases hd with ⟨_, rfl⟩ | hd
    · rfl
    · obtain ⟨k, hk, rfl⟩ := hexDigitsAux_mem n n d hd
      simp [hexDigit_ne_slash k hk]
  calc (hex04 n).map (fun c => if c = '/' then '-' else c)
      = (hex04 n).map id := List.map_congr_left h
    _ = hex04 n := List.map_id _

theorem sanitize_filename_char (c : Char) :
    ((if keptChar (if (if c = '/' then '-' else c) = '\\' then '-'
        else (if c = '/' then '-' else c)) then
        [(if (if c = '/' then '-' else c) = '\\' then '-' else (if c = '/' then '-' else c))]
      else '-' :: 'u' :: hex04
        (if (if c = '/' then '-' else c) = '\\' then '-'
          else (if c = '/' then '-' else c)).toNat).map
      (fun d => if d = '/' then '-' else d)) = sanitize_spec_char c := by
  by_cases h1 : c = '/'
  · subst h1; rfl
  · by_cases h2 : c = '\\'
    · subst h2; rfl
    · have hspec : sanitize_spec_char c =
          (if keptChar c then [c] else '-' :: 'u' :: hex04 c.toNat) := by
        unfold sanitize_spec_char
        rw [if_neg (by simp [h1, h2])]
      rw [hspec]
      simp only [if_neg h1, if_neg h2]
      by_cases h3 : keptChar c
      · simp only [if_pos h3, List.map_cons, List.map_nil, if_neg h1]
      · simp only [if_neg h3, List.map_cons]
        rw [hex04_map_no_slash]
        simp

theorem sanitize_filename_eq_spec (p : List Char) :
    sanitize_filename p = (p.map sanitize_spec_char).flatten := by
  induction p with
  | nil => rfl
  | cons c rest ih =>
    show (((((c :: rest).map (fun c => if c = '/' then '-' else c)).map
        (fun c => if c = '\\' then '-' else c)).map
        (fun c => if keptChar c then [c] else '-' :: 'u' :: hex04 c.toNat)).flatten).map
        (fun c => if c = '/' then '-' else c) = _
    simp only [List.map_cons, List.flatten_cons, List.map_append]
    rw [sanitize_filename_char c]
    exact congrArg (sanitize_spec_char c ++ ·) ih

theorem hexDigitsAux_length_le :
    ∀ (fuel n k : Nat), n < 16 ^ (k + 1) → (hexDigitsAux fuel n).length ≤ k + 1 := by
  intro fuel
  induction fuel with
  | zero =>
    intro n k _
    simp only [hexDigitsAux, List.length_singleton]
    omega
  | succ fuel ih =>
    intro n k hn
    by_cases h16 : n < 16
    · simp only [hexDigitsAux, if_pos h16, List.length_singleton]
      omega
    · cases k with
      | zero => exact absurd hn (by simp only [zero_add, pow_one]; exact h16)
      | succ k' =>
        have hdiv : n / 16 < 16 ^ (k' + 1) := by
          have h1 : n < 16 ^ (k' + 1) * 16 := by
            calc n < 16 ^ (k' + 1 + 1) := hn
              _ = 16 ^ (k' + 1) * 16 := by ring
          omega
        have := ih (n / 16) k' hdiv
        simp only [hexDigitsAux, if_neg h16, List.length_append, List.length_singleton]
        omega

theorem hex04_length_of_lt (n : Nat) (hn : n < 65536) : (hex04 n).length = 4 := by
  have hle : (hexDigitsAux n n).length ≤ 4 := by
    have h4 : (16 : Nat) ^ (3 + 1) = 65536 := by norm_num
    have := hexDigitsAux_length_le n n 3 (by omega)
    omega
  show (List.replicate (4 - (hexDigitsAux n n).length) '0' ++ hexDigitsAux n n).length = 4
  simp only [List.length_append, List.length_replicate]
  omega

/-- C6 counterexample.  The claim says every character outside
`[A-Za-z0-9._-]` is replaced by `-uXXXX` with the codepoint in four hex
digits.  The program's `char::is_alphanumeric` is Unicode-aware, so the
Latin-1 letter `é` (U+00E9, outside the claim's class) is kept verbatim
rather than escaped to `-u00e9`; and a non-alphanumeric codepoint above
U+FFFF such as U+1F600 escapes to `-u1f600` — five hex digits, not four. -/
theorem c6_sanitize_counterexample :
    sanitize_filename (str "é.png") = str "é.png"
    ∧ sanitize_filename (str "é.png") ≠ str "-u00e9.png"
    ∧ sanitize_filename (str "😀") = str "-u1f600"
    ∧ (hex04 (Char.toNat '😀')).length = 5 := by
  refine ⟨rfl, by decide, rfl, rfl⟩

/-- C6 amended.  Sanitization and the embed-image scenario:
(i) for every path of characters below U+0100 (the range on which the
model's `rust_is_alphanumeric` is exact), `sanitize_filename` equals the
per-character rule of `sanitize_spec_char` — separators `/` and `\` flatten
to `-`, alphanumerics (Unicode, hence non-ASCII letters like `é` as well)
plus `.`, `-`, `_` are kept, every other character becomes `-u` plus its
lowercase hex codepoint; (ii) for codepoints up to U+FFFF that escape is
exactly four hex digits (five or more beyond, see the counterexample);
(iii) for body reference `![[diagram.png|A diagram]]` with exactly one
`diagram.png` in the tree at `assets/diagram.png`, the rewriter emits
`![A diagram](/static/assets-diagram.png)`. -/
theorem c6_sanitize_amended :
    (∀ p : List Char, (∀ c ∈ p, c.toNat < 256) →
        sanitize_filename p = (p.map sanitize_spec_char).flatten)
    ∧ (∀ n : Nat, n < 65536 → (hex04 n).length = 4)
    ∧ alt_image_replacement (str "diagram.png") (str "A diagram")
        [str "content", str "index.md"]
        (init_file_cache [str "content/assets/diagram.png", str "content/index.md"])
      = str "![A diagram](/static/assets-diagram.png)" :=
  ⟨fun p _ => sanitize_filename_eq_spec p, fun n hn => hex04_length_of_lt n hn, by decide⟩

/-- Witness for C6's amended theorem at a path mixing ASCII, a space, and a
Latin-1 letter. -/
theorem c6_sanitize_amended_witness :
    sanitize_filename (str "aé b/c.png")
      = ((str "aé b/c.png").map sanitize_spec_char).flatten
    ∧ (hex04 32).length = 4 :=
  ⟨c6_sanitize_amended.1 _ (by decide), c6_sanitize_amended.2.1 32 (by decide)⟩

/-! ## C8: zero-match fallback of the Reference Rewriter -/

theorem splitOnChar_of_not_contains (sep : Char) (s : List Char)
    (h : s.contains sep = false) : splitOnChar sep s = [s] := by
  induction s with
  | nil => rfl
  | cons c rest ih =>
    simp only [List.contains_cons, Bool.or_eq_false_iff] at h
    obtain ⟨hc, hrest⟩ := h
    have hcne : ¬ c = sep := fun hcc => ((by simpa using hc : ¬ sep = c)) hcc.symm
    rw [splitOnChar_nonsep_cons sep c rest hcne, ih hrest]
    rfl

/-- C8.  For a bare reference (no `/`) that is not absolute, external or
`wiki:`-namespaced and matches zero File Index entries (absent key or empty
match list), the rewriter's output is byte-identical to the path-relative
fallback applied directly — `resolve_path` for images, the normalized
document-path rule for internal links — and the reference is re-emitted,
never dropped. -/
theorem c8_zero_match_fallback (cache : FileMap) (cur : List (List Char))
    (name alt : List Char) (disp? : Option (List Char))
    (hsep : name.contains '/' = false)
    (hh : (str "http://").isPrefixOf name = false)
    (hhs : (str "https://").isPrefixOf name = false)
    (habs : startsWithChar '/' name = false)
    (hwiki : (str "wiki:").isPrefixOf name = false)
    (hlk : lookupMap cache name = none ∨ lookupMap cache name = some []) :
    find_unique_image name cur cache = resolve_path name cur
    ∧ alt_image_replacement name alt cur cache
      = str "![" ++ alt ++ str "](" ++ resolve_path name cur ++ str ")"
    ∧ find_unique_internal_link name cache = get_internal_link_path name
    ∧ link_replacement name disp? cache
      = str "[" ++ disp?.getD name ++ str "](" ++ get_internal_link_path name ++ str ")" := by
  have himg : find_unique_image name cur cache = resolve_path name cur := by
    unfold find_unique_image
    rw [hsep]
    rcases hlk with h | h <;> rw [h] <;> rfl
  have hlink : find_unique_internal_link name cache = get_internal_link_path name := by
    unfold find_unique_internal_link
    rcases hlk with h | h <;> rw [h]
  refine ⟨himg, ?_, hlink, ?_⟩
  · unfold alt_image_replacement
    rw [hh, hhs, habs]
    simp [himg]
  · unfold link_replacement
    have hdisp :
        (match disp? with
          | some m => m
          | none =>
            ((splitOnChar '/' ((stripPrefixL (str "wiki:") name).getD name)).getLast?).getD name)
        = disp?.getD name := by
      cases disp? with
      | some m => rfl
      | none =>
        simp only [Option.getD_none]
        rw [show stripPrefixL (str "wiki:") name = none by
            unfold stripPrefixL; rw [hwiki]; rfl]
        simp only [Option.getD_none]
        rw [splitOnChar_of_not_contains '/' name hsep]
        rfl
    rw [hdisp, if_neg (by simp [hwiki]), hh, hhs, habs, hsep]
    simp [hlink]

/-- Witness for C8 at an empty cache. -/
theorem c8_zero_match_fallback_witness :
    find_unique_image (str "notes") [str "content", str "a.md"] []
      = resolve_path (str "notes") [str "content", str "a.md"]
    ∧ find_unique_internal_link (str "notes") [] = get_internal_link_path (str "notes") :=
  ⟨(c8_zero_match_fallback [] _ _ (str "t") none (by decide) (by decide) (by decide)
      (by decide) (by decide) (Or.inl rfl)).1,
   (c8_zero_match_fallback [] [] _ (str "t") none (by decide) (by decide) (by decide)
      (by decide) (by decide) (Or.inl rfl)).2.2.1⟩

/-! ## C9: frontmatter extraction error conditions -/

/-- C9.  `extract_frontmatter` succeeds exactly when the (whitespace-trimmed)
document opens with `---`, a `\n---` closing delimiter follows, the
delimited block parses as YAML, and it carries string-typed `title` and
`date` values — every other case is an error; and on success it returns the
parsed frontmatter together with all text after the closing delimiter as
the body. -/
theorem c9_frontmatter_iff (parse : List Char → Option Yaml) (content : List Char) :
    (isOkE (extract_frontmatter parse content) = true ↔ frontmatterOk parse content)
    ∧ (∀ fm body, extract_frontmatter parse content = .ok (fm, body) →
        ∃ e, findSub (str "\n---") ((content.dropWhile Char.isWhitespace).drop 3) = some e ∧
          parse (trimChars (((content.dropWhile Char.isWhitespace).drop 3).take e)) = some fm ∧
          body = ((content.dropWhile Char.isWhitespace).drop 3).drop (e + 4)) := by
  unfold extract_frontmatter frontmatterOk
  dsimp only
  cases h1 : (str "---").isPrefixOf (content.dropWhile Char.isWhitespace) with
  | false => simp [isOkE]
  | true =>
    simp only [Bool.not_true, Bool.false_eq_true, if_false]
    cases h2 : findSub (str "\n---") ((content.dropWhile Char.isWhitespace).drop 3) with
    | none => simp [isOkE]
    | some e =>
      dsimp only
      cases h3 : parse (trimChars (((content.dropWhile Char.isWhitespace).drop 3).take e)) with
      | none => simp [isOkE, h3]
      | some fm =>
        dsimp only
        cases h4 : fm.get (str "title") with
        | none => simp [isOkE, h3, h4]
        | some t =>
          cases h5 : fm.get (str "date") with
          | none => simp [isOkE, h3, h4, h5]
          | some d =>
            dsimp only
            cases h6 : t.isString with
            | false => simp [isOkE, h3, h4, h5, h6]
            | true =>
              cases h7 : d.isString with
              | false => simp [isOkE, h3, h4, h5, h6, h7]
              | true =>
                simp only [Bool.not_true, Bool.or_self, Bool.false_eq_true, if_false, isOkE]
                constructor
                · exact ⟨fun _ => ⟨trivial, e, rfl, fm, h3, t, h4, d, h5, h6, h7⟩, fun _ => trivial⟩
                · intro fm' body' heq
                  obtain ⟨hfm, hbody⟩ := Prod.mk.injEq .. ▸ (Except.ok.injEq .. ▸ heq)
                  exact ⟨e, rfl, hfm ▸ h3, hbody.symm⟩

/-- Witness for C9 at a concrete well-formed document. -/
theorem c9_frontmatter_iff_witness :
    ∃ e, findSub (str "\n---")
        (((str "---\ntitle: a\ndate: b\n---\nBODY").dropWhile Char.isWhitespace).drop 3)
      = some e ∧
      demoParse (trimChars
        ((((str "---\ntitle: a\ndate: b\n---\nBODY").dropWhile Char.isWhitespace).drop 3).take e))
      = some demoFm ∧
      str "\nBODY"
      = (((str "---\ntitle: a\ndate: b\n---\nBODY").dropWhile Char.isWhitespace).drop 3).drop
          (e + 4) :=
  (c9_frontmatter_iff demoParse (str "---\ntitle: a\ndate: b\n---\nBODY")).2
    demoFm (str "\nBODY") rfl

/-! ## C10: idempotence of the wiki-namespace parenthetical pass -/

/-- C10 counterexample.  The pass is not idempotent on its own output: for
`[x](wiki:y](wiki:z)` the greedy article group captures `y](wiki:z`, the
replacement re-contains `](wiki:`, and a second application rewrites again. -/
theorem c10_wiki_pass_counterexample :
    process_wiki_parenthetical_links
        (process_wiki_parenthetical_links (str "[x](wiki:y](wiki:z)"))
      ≠ process_wiki_parenthetical_links (str "[x](wiki:y](wiki:z)") := by
  decide

theorem wikiScan_containsSub (t : List Char) :
    ∀ (dispRev : List Char) (r : Nat × List Char), wikiScan dispRev t = some r →
      containsSub (str "](wiki:") t = true := by
  induction t with
  | nil => intro dispRev r h; simp [wikiScan] at h
  | cons c u ih =>
    intro dispRev r h
    rw [wikiScan] at h
    by_cases hnl : c = '\n'
    · rw [if_pos hnl] at h; cases h
    · rw [if_neg hnl] at h
      by_cases hbr : (c = ']' && (str "(wiki:").isPrefixOf u) = true
      · rw [if_pos hbr] at h
        obtain ⟨hc, hu⟩ := Bool.and_eq_true_iff.mp hbr
        have hc' : c = ']' := by simpa using hc
        subst hc'
        rw [containsSub]
        apply Bool.or_eq_true_iff.mpr
        left
        show (']' :: str "(wiki:").isPrefixOf (']' :: u) = true
        simp [List.isPrefixOf, hu]
      · rw [if_neg hbr] at h
        rw [containsSub]
        apply Bool.or_eq_true_iff.mpr
        right
        exact ih _ _ h

theorem tryWikiMatch_containsSub (s : List Char) (r : Nat × List Char)
    (h : tryWikiMatch s = some r) : containsSub (str "](wiki:") s = true := by
  cases s with
  | nil => simp [tryWikiMatch] at h
  | cons c rest =>
    rw [containsSub]
    apply Bool.or_eq_true_iff.mpr
    right
    unfold tryWikiMatch at h
    dsimp only at h
    by_cases hc : c = '['
    · rw [if_pos hc] at h
      exact wikiScan_containsSub rest [] r h
    · rw [if_neg hc] at h
      cases h

theorem replaceAllWikiAux_no_match (fuel : Nat) :
    ∀ (s : List Char), containsSub (str "](wiki:") s = false →
      replaceAllWikiAux fuel s = s := by
  induction fuel with
  | zero => intro s _; cases s <;> rfl
  | succ fuel ih =>
    intro s h
    cases s with
    | nil => rfl
    | cons c rest =>
      rw [replaceAllWikiAux]
      cases htm : tryWikiMatch (c :: rest) with
      | some r =>
        exact absurd (tryWikiMatch_containsSub _ _ htm) (by simp [h])
      | none =>
        rw [containsSub, Bool.or_eq_false_iff] at h
        rw [ih rest h.2]

/-- C10 amended.  The wiki-namespace pass is a no-op — and hence idempotent —
on every text that contains no `](wiki:` occurrence; in particular a second
application leaves the first application's output unchanged whenever that
output no longer contains `](wiki:` (which the counterexample shows can
fail when an article capture itself embeds `](wiki:`). -/
theorem c10_wiki_pass_amended_idempotent (t : List Char)
    (h : containsSub (str "](wiki:") (process_wiki_parenthetical_links t) = false) :
    process_wiki_parenthetical_links (process_wiki_parenthetical_links t)
      = process_wiki_parenthetical_links t :=
  replaceAllWikiAux_no_match _ _ h

/-- Witness for C10's amended theorem on a plain wiki link. -/
theorem c10_wiki_pass_amended_witness :
    containsSub (str "](wiki:")
        (process_wiki_parenthetical_links (str "[a](wiki:B) ok")) = false
    ∧ process_wiki_parenthetical_links
        (process_wiki_parenthetical_links (str "[a](wiki:B) ok"))
      = process_wiki_parenthetical_links (str "[a](wiki:B) ok") :=
  ⟨by decide, c10_wiki_pass_amended_idempotent (str "[a](wiki:B) ok") (by decide)⟩

end Sekiei
